import Mathlib

/-!
Verification of the WasmFilter front-end (src/ts/index.ts, src/ts/cursor.ts).

The TypeScript source manipulates the DOM of one editable element.  The
shallow embedding below models:
 - JS strings as List Char (one entry per UTF-16 code unit; .length and
   .slice of JS are code-unit based, so take/drop is a faithful model),
 - the element's DOM subtree as an ordered tree whose leaves are text
   nodes and whose internal nodes are styled span elements,
 - a caret boundary point inside the element as a pair
   (index of the text leaf in pre-order, offset inside that leaf),
 - the mutable traversal state of cursor.ts as explicit state passing.
All definitions are translated from the source files; DOM API calls
(Range.setEnd, Range.insertNode, ...) are modelled by their effect as
given in the DOM standard, documented at each definition.
-/

namespace WasmFilter

/-- JS String.prototype.slice restricted to nonnegative indices, as used by
handleFilterInput: input.slice(a, b) keeps code units a..b-1, clamping
out-of-range indices and returning the empty string when a >= b. -/
def strSlice (l : List Char) (a b : Nat) : List Char := (l.take b).drop a

/-- Modelled from the spec: the BareToken enumeration is exported by the
missing ../pkg wasm module.  wasm-bindgen exports an enum as consecutive
numbers, so each kind is a Nat; the numbering follows the order in which
the spec lists the closed enumeration Name, Paren, Comparator, String,
Number, JoinType, Error.  Values of 7 and above model kinds unknown to
the switch statement in handleFilterInput. -/
def BareToken.Name : Nat := 0

/-- Modelled from the spec: second kind of the BareToken enumeration. -/
def BareToken.Paren : Nat := 1

/-- Modelled from the spec: third kind of the BareToken enumeration. -/
def BareToken.Comparator : Nat := 2

/-- Modelled from the spec: fourth kind of the BareToken enumeration. -/
def BareToken.String : Nat := 3

/-- Modelled from the spec: fifth kind of the BareToken enumeration. -/
def BareToken.Number : Nat := 4

/-- Modelled from the spec: sixth kind of the BareToken enumeration. -/
def BareToken.JoinType : Nat := 5

/-- Modelled from the spec: seventh kind of the BareToken enumeration. -/
def BareToken.Error : Nat := 6

/-- A lexer token as consumed by handleFilterInput: a kind (field name
token, as in the source) and half-open code-unit offsets start / end
into the raw text. -/
structure Token where
  token : Nat
  start : Nat
  «end» : Nat
deriving DecidableEq

/-- The switch (token.token) statement of handleFilterInput
(src/ts/index.ts): Paren and Comparator share the hl-cmpr class by
fall-through, and a kind matching no case leaves className at its
initial value, the empty string. -/
def tokenClassName (k : Nat) : String :=
  if k = BareToken.Name then "hl-name"
  else if k = BareToken.Paren then "hl-cmpr"
  else if k = BareToken.Comparator then "hl-cmpr"
  else if k = BareToken.String then "hl-str"
  else if k = BareToken.Number then "hl-num"
  else if k = BareToken.JoinType then "hl-join"
  else if k = BareToken.Error then "hl-invalid"
  else ""

/-- The token contract of the spec, relative to a lower bound lb on the
next admissible start: tokens are sorted ascending by start,
non-overlapping (each end is at most the next start) and all offsets lie
within [0, len].  The whole contract for a text of length len is
tokensOk len 0. -/
def tokensOk (len : Nat) : Nat → List Token → Bool
  | _, [] => true
  | lb, t :: ts =>
      decide (lb ≤ t.start) && decide (t.start ≤ t.«end») &&
      decide (t.«end» ≤ len) && tokensOk len t.«end» ts

mutual

/-- The DOM subtree of the editable element: a text node owning a string,
or an element (here always a span carrying a class attribute) with an
ordered child list. -/
inductive Node where
  | text (s : List Char)
  | elem (className : String) (children : NodeList)

/-- Ordered list of sibling DOM nodes (a separate inductive so that the
mutual recursions below are structural). -/
inductive NodeList where
  | nil
  | cons (hd : Node) (tl : NodeList)

end

mutual

/-- Pre-order list of the text-leaf contents of a node (the text nodes a
DOM traversal of the element visits, left to right). -/
def leavesN : Node → List (List Char)
  | .text s => [s]
  | .elem _ cs => leavesL cs

/-- Pre-order list of the text-leaf contents of a sibling list. -/
def leavesL : NodeList → List (List Char)
  | .nil => []
  | .cons n ns => leavesN n ++ leavesL ns

end

/-- Total length of a list of leaf strings. -/
def sumLens (ls : List (List Char)) : Nat := (ls.map List.length).sum

/-- Length of the i-th leaf string (0 when i is out of range). -/
def lenAt (ls : List (List Char)) (i : Nat) : Nat := (ls.getD i []).length

/-- Length of the text strictly before the i-th leaf. -/
def prefixLen (ls : List (List Char)) (i : Nat) : Nat := sumLens (ls.take i)

/-- The textContent of a node: concatenation of its leaf text in
pre-order, exactly the string the DOM reports for the element. -/
def treeText (t : Node) : List Char := (leavesN t).flatten

/-- The child list the highlight loop of handleFilterInput appends to the
wrapper span, starting from a given last_end: for each token a plain
text node with the gap input.slice(last_end, token.start) followed by a
span of class tokenClassName holding input.slice(token.start, token.end),
and after the loop a final text node with input.slice(last_end). -/
def renderChildren (input : List Char) : Nat → List Token → NodeList
  | le, [] => .cons (.text (strSlice input le input.length)) .nil
  | le, t :: ts =>
      .cons (.text (strSlice input le t.start))
        (.cons (.elem (tokenClassName t.token)
                  (.cons (.text (strSlice input t.start t.«end»)) .nil))
          (renderChildren input t.«end» ts))

/-- The editable element after handleFilterInput assigns
inputElement.innerHTML = wrapper.innerHTML: its children are the nodes
built by the highlight loop.  The class of the element itself is not
meaningful. -/
def renderTree (input : List Char) (toks : List Token) : Node :=
  .elem "" (renderChildren input 0 toks)

mutual

/-- The recursive setCursorToPosition of cursor.ts, on a single node.
The mutable variables of the source become explicit state: chars is the
countdown of characters still to skip, cur is the current start setting
of the freshly created range (none: document.createRange()'s default
boundary at the start of the document, outside the element), and base is
the number of text leaves of the element strictly before this subtree,
so that a leaf can be named globally.  The source returns immediately
when chars is 0; on a text node with textContent.length >= chars it
calls range.setStart(node, chars) and zeroes chars; otherwise it
subtracts the text length; on an element it recurses over childNodes. -/
def setCursorN (base : Nat) (n : Node) (chars : Nat)
    (cur : Option (Nat × Nat)) : Nat × Option (Nat × Nat) :=
  if chars = 0 then (0, cur)
  else
    match n with
    | .text s =>
        if s.length ≥ chars then (0, some (base, chars))
        else (chars - s.length, cur)
    | .elem _ cs => setCursorL base cs chars cur

/-- The for-child loop of setCursorToPosition: visit each child in order
and break as soon as chars reaches 0. -/
def setCursorL (base : Nat) (cs : NodeList) (chars : Nat)
    (cur : Option (Nat × Nat)) : Nat × Option (Nat × Nat) :=
  match cs with
  | .nil => (chars, cur)
  | .cons n ns =>
      let r := setCursorN base n chars cur
      if r.1 = 0 then (0, r.2)
      else setCursorL (base + (leavesN n).length) ns r.1 r.2

end

/-- The same traversal over the flattened pre-order list of leaf texts;
the bridge theorems below show setCursorToPosition computes it. -/
def flatWalk (base : Nat) : List (List Char) → Nat → Option (Nat × Nat) →
    Nat × Option (Nat × Nat)
  | [], chars, cur => (chars, cur)
  | s :: ls, chars, cur =>
      if chars = 0 then (0, cur)
      else if s.length ≥ chars then (0, some (base, chars))
      else flatWalk (base + 1) ls (chars - s.length) cur

/-- Outcome of restoreCursorPosition.  noChange: the function returned
before touching the selection (null position in the source).  caretAt r:
selection.removeAllRanges(); selection.addRange(range) ran, installing a
collapsed caret; r is the boundary the range start was set to, where
none means range.setStart was never called, leaving the freshly created
range at its default boundary (start of the document, outside the
element). -/
inductive RestoreResult where
  | noChange
  | caretAt (ref : Option (Nat × Nat))
deriving DecidableEq

/-- cursor.ts restoreCursorPosition: return unchanged when the position
is null (the element and selection are modelled as present); otherwise
run setCursorToPosition(element) on a fresh range, collapse it to its
start and install it as the selection. -/
def restoreCursorPosition (element : Node) (cursorPosition : Option Nat) :
    RestoreResult :=
  match cursorPosition with
  | none => .noChange
  | some p => .caretAt (setCursorN 0 element p none).2

/-- cursor.ts saveCursorPosition.  The argument sel models
window.getSelection(): none when there is no selection or it has zero
ranges (the source returns null, also for a null element); some r when
range 0's start boundary is r, with r = none when that boundary lies
outside (before) the element.  The source clones the range, calls
selectNodeContents(element) and then setEnd at the original start; per
the DOM standard setting an end before the start collapses the range to
that end, so an outside boundary yields the empty string and offset 0,
and a boundary in leaf i at offset off yields the text of the leaves
before i plus off characters. -/
def saveCursorPosition (element : Node)
    (sel : Option (Option (Nat × Nat))) : Option Nat :=
  match sel with
  | none => none
  | some none => some 0
  | some (some (i, off)) => some (prefixLen (leavesN element) i + off)

theorem strSlice_append_strSlice (l : List Char) {a b c : Nat}
    (hab : a ≤ b) (hbc : b ≤ c) (hc : c ≤ l.length) :
    strSlice l a b ++ strSlice l b c = strSlice l a c := by
  unfold strSlice
  have htake : (l.take c).take b = l.take b := by
    simp [List.take_take, Nat.min_eq_left hbc]
  have hsplit : l.take c = l.take b ++ (l.take c).drop b := by
    conv_lhs => rw [← List.take_append_drop b (l.take c)]
    rw [htake]
  have hlen : a ≤ (l.take b).length := by
    simp only [List.length_take]
    exact le_min hab (le_trans (le_trans hab hbc) hc)
  calc (l.take b).drop a ++ (l.take c).drop b
      = (l.take b ++ (l.take c).drop b).drop a := by
        rw [List.drop_append_of_le_length hlen]
    _ = (l.take c).drop a := by rw [← hsplit]

theorem treeText_renderChildren (input : List Char) :
    ∀ (toks : List Token) (le : Nat),
      le ≤ input.length → tokensOk input.length le toks = true →
      (leavesL (renderChildren input le toks)).flatten =
        strSlice input le input.length := by
  intro toks
  induction toks with
  | nil =>
      intro le _ _
      simp [renderChildren, leavesL, leavesN]
  | cons t ts ih =>
      intro le hle hok
      simp only [tokensOk, Bool.and_eq_true, decide_eq_true_eq] at hok
      obtain ⟨⟨⟨h1, h2⟩, h3⟩, h4⟩ := hok
      simp only [renderChildren, leavesL, leavesN, List.flatten_append,
        List.flatten_cons, List.flatten_nil, List.append_nil,
        List.append_assoc]
      rw [ih t.«end» h3 h4]
      rw [strSlice_append_strSlice input h2 h3 (le_refl _),
        strSlice_append_strSlice input h1 (le_trans h2 h3) (le_refl _)]

/-- C1: for a token list satisfying the token contract, the pre-order
leaf concatenation of the tree built by the highlight renderer equals
the input text exactly. -/
theorem render_preserves_text (input : List Char) (toks : List Token)
    (h : tokensOk input.length 0 toks = true) :
    treeText (renderTree input toks) = input := by
  have := treeText_renderChildren input toks 0 (Nat.zero_le _) h
  simpa [treeText, renderTree, leavesN, strSlice] using this

/-- C1 witness: the spec's concrete scenario text a>1 with the three
adjacent tokens Name, Comparator, Number satisfies the contract and the
rendered tree's leaf concatenation is the input text. -/
theorem render_preserves_text_witness :
    tokensOk 3 0 [⟨BareToken.Name, 0, 1⟩, ⟨BareToken.Comparator, 1, 2⟩,
        ⟨BareToken.Number, 2, 3⟩] = true ∧
    treeText (renderTree ['a', '>', '1']
        [⟨BareToken.Name, 0, 1⟩, ⟨BareToken.Comparator, 1, 2⟩,
         ⟨BareToken.Number, 2, 3⟩]) = ['a', '>', '1'] :=
  ⟨by decide,
   render_preserves_text ['a', '>', '1'] _ (by decide)⟩

theorem sumLens_nil : sumLens [] = 0 := rfl

theorem sumLens_cons (s : List Char) (ls : List (List Char)) :
    sumLens (s :: ls) = s.length + sumLens ls := by
  simp [sumLens]

theorem sumLens_append (xs ys : List (List Char)) :
    sumLens (xs ++ ys) = sumLens xs + sumLens ys := by
  simp [sumLens]

theorem sumLens_eq_length_flatten (ls : List (List Char)) :
    sumLens ls = ls.flatten.length := by
  simp [sumLens]

theorem prefixLen_zero (ls : List (List Char)) : prefixLen ls 0 = 0 := rfl

theorem prefixLen_cons_succ (s : List Char) (ls : List (List Char)) (i : Nat) :
    prefixLen (s :: ls) (i + 1) = s.length + prefixLen ls i := by
  simp [prefixLen, sumLens_cons]

theorem prefixLen_add_sumLens_drop (ls : List (List Char)) (n : Nat) :
    prefixLen ls n + sumLens (ls.drop n) = sumLens ls := by
  conv_rhs => rw [← List.take_append_drop n ls]
  rw [sumLens_append]
  rfl

theorem prefixLen_succ (ls : List (List Char)) (i : Nat) (h : i < ls.length) :
    prefixLen ls (i + 1) = prefixLen ls i + lenAt ls i := by
  have hget : ls.getD i [] = ls[i] := by
    simp [List.getD, List.getElem?_eq_getElem h]
  simp only [prefixLen, List.take_succ, sumLens_append,
    List.getElem?_eq_getElem h, Option.toList_some, lenAt, hget]
  simp [sumLens]

theorem flatWalk_zero (ls : List (List Char)) (base : Nat)
    (cur : Option (Nat × Nat)) : flatWalk base ls 0 cur = (0, cur) := by
  cases ls <;> simp [flatWalk]

theorem flatWalk_append (ys : List (List Char)) :
    ∀ (xs : List (List Char)) (base chars : Nat) (cur : Option (Nat × Nat)),
      flatWalk base (xs ++ ys) chars cur =
        if (flatWalk base xs chars cur).1 = 0 then
          (0, (flatWalk base xs chars cur).2)
        else
          flatWalk (base + xs.length) ys (flatWalk base xs chars cur).1
            (flatWalk base xs chars cur).2 := by
  intro xs
  induction xs with
  | nil =>
      intro base chars cur
      by_cases h0 : chars = 0
      · subst h0; simp [flatWalk, flatWalk_zero]
      · simp [flatWalk, h0]
  | cons s tl ih =>
      intro base chars cur
      by_cases h0 : chars = 0
      · subst h0; simp [flatWalk]
      · by_cases hfit : s.length ≥ chars
        · simp [flatWalk, h0, hfit]
        · have harith : base + 1 + tl.length = base + (tl.length + 1) := by
            omega
          simp only [List.cons_append, flatWalk, if_neg h0, if_neg hfit,
            List.length_cons, List.append_eq]
          rw [ih (base + 1) (chars - s.length) cur, harith]

theorem setCursorN_zero (base : Nat) (n : Node) (cur : Option (Nat × Nat)) :
    setCursorN base n 0 cur = (0, cur) := by
  cases n <;> simp [setCursorN]

mutual

theorem setCursorN_eq_flatWalk (n : Node) :
    ∀ (base chars : Nat) (cur : Option (Nat × Nat)),
      setCursorN base n chars cur = flatWalk base (leavesN n) chars cur := by
  cases n with
  | text s =>
      intro base chars cur
      by_cases h0 : chars = 0
      · subst h0; simp [setCursorN, leavesN, flatWalk]
      · by_cases hfit : s.length ≥ chars
        · simp [setCursorN, leavesN, flatWalk, h0, hfit]
        · have h1 : chars - s.length ≠ 0 := by omega
          simp [setCursorN, leavesN, flatWalk, h0, hfit]
  | elem c cs =>
      intro base chars cur
      by_cases h0 : chars = 0
      · subst h0; simp [setCursorN, leavesN, flatWalk_zero]
      · simp only [setCursorN, if_neg h0, leavesN]
        exact setCursorL_eq_flatWalk cs base chars cur

theorem setCursorL_eq_flatWalk (cs : NodeList) :
    ∀ (base chars : Nat) (cur : Option (Nat × Nat)),
      setCursorL base cs chars cur = flatWalk base (leavesL cs) chars cur := by
  cases cs with
  | nil => intro base chars cur; simp [setCursorL, leavesL, flatWalk]
  | cons n ns =>
      intro base chars cur
      rw [setCursorL]
      simp only [leavesL]
      rw [flatWalk_append (leavesL ns) (leavesN n) base chars cur]
      rw [setCursorN_eq_flatWalk n base chars cur]
      by_cases hz : (flatWalk base (leavesN n) chars cur).1 = 0
      · simp [hz]
      · simp only [if_neg hz]
        exact setCursorL_eq_flatWalk ns (base + (leavesN n).length)
          (flatWalk base (leavesN n) chars cur).1
          (flatWalk base (leavesN n) chars cur).2

end

theorem flatWalk_found :
    ∀ (ls : List (List Char)) (base chars : Nat) (cur : Option (Nat × Nat)),
      1 ≤ chars → chars ≤ sumLens ls →
      ∃ i off, flatWalk base ls chars cur = (0, some (base + i, off)) ∧
        prefixLen ls i + off = chars ∧ 1 ≤ off ∧ off ≤ lenAt ls i ∧
        i < ls.length := by
  intro ls
  induction ls with
  | nil =>
      intro base chars cur h1 h2
      rw [sumLens_nil] at h2
      omega
  | cons s tl ih =>
      intro base chars cur h1 h2
      have h0 : chars ≠ 0 := by omega
      by_cases hfit : s.length ≥ chars
      · refine ⟨0, chars, ?_, ?_, h1, ?_, ?_⟩
        · simp [flatWalk, h0, hfit]
        · simp [prefixLen_zero]
        · simpa [lenAt] using hfit
        · simp
      · rw [sumLens_cons] at h2
        obtain ⟨i, off, hw, hsum, hoff1, hoffle, hlt⟩ :=
          ih (base + 1) (chars - s.length) cur (by omega) (by omega)
        refine ⟨i + 1, off, ?_, ?_, hoff1, ?_, ?_⟩
        · have harith : base + 1 + i = base + (i + 1) := by omega
          rw [flatWalk, if_neg h0, if_neg hfit, hw, harith]
        · rw [prefixLen_cons_succ]; omega
        · simpa [lenAt] using hoffle
        · simpa using hlt

theorem flatWalk_overflow :
    ∀ (ls : List (List Char)) (base chars : Nat) (cur : Option (Nat × Nat)),
      sumLens ls < chars →
      flatWalk base ls chars cur = (chars - sumLens ls, cur) := by
  intro ls
  induction ls with
  | nil => intro base chars cur _; simp [flatWalk, sumLens_nil]
  | cons s tl ih =>
      intro base chars cur h
      rw [sumLens_cons] at h
      have h0 : chars ≠ 0 := by omega
      have hfit : ¬s.length ≥ chars := by omega
      rw [flatWalk, if_neg h0, if_neg hfit, ih (base + 1) _ cur (by omega),
        sumLens_cons]
      have : chars - s.length - sumLens tl = chars - (s.length + sumLens tl) := by
        omega
      rw [this]

/-- C2: render text and tokens, place the caret at linear offset pos in
the new tree via restoreCursorPosition, then capture it again via
saveCursorPosition's pre-order accumulation: the captured offset is pos
for every pos in [0, length(text)].  For pos = 0 the source never calls
range.setStart, leaving the default document-start boundary, whose
capture also reads back 0. -/
theorem render_restore_capture_roundtrip (input : List Char)
    (toks : List Token) (pos : Nat)
    (hv : tokensOk input.length 0 toks = true) (hp : pos ≤ input.length) :
    ∃ ref, restoreCursorPosition (renderTree input toks) (some pos)
        = .caretAt ref ∧
      saveCursorPosition (renderTree input toks) (some ref) = some pos := by
  have hsum : sumLens (leavesN (renderTree input toks)) = input.length := by
    rw [sumLens_eq_length_flatten]
    have := render_preserves_text input toks hv
    rw [treeText] at this
    rw [this]
  match pos with
  | 0 =>
      refine ⟨none, ?_, rfl⟩
      rw [restoreCursorPosition]
      simp [setCursorN]
  | p + 1 =>
      obtain ⟨i, off, hw, hpre, _, _, _⟩ :=
        flatWalk_found (leavesN (renderTree input toks)) 0 (p + 1) none
          (by omega) (by omega)
      refine ⟨some (i, off), ?_, ?_⟩
      · rw [restoreCursorPosition, setCursorN_eq_flatWalk, hw]
        simp
      · rw [saveCursorPosition, hpre]

/-- Tokens of the spec's concrete scenario on the text a>1. -/
def demoTokens : List Token :=
  [⟨BareToken.Name, 0, 1⟩, ⟨BareToken.Comparator, 1, 2⟩,
   ⟨BareToken.Number, 2, 3⟩]

/-- C2 witness: the round trip at pos = 2 inside the rendered tree of
the text a>1. -/
theorem render_restore_capture_roundtrip_witness :
    tokensOk (['a', '>', '1'] : List Char).length 0 demoTokens = true ∧
    2 ≤ (['a', '>', '1'] : List Char).length ∧
    ∃ ref, restoreCursorPosition (renderTree ['a', '>', '1'] demoTokens)
        (some 2) = .caretAt ref ∧
      saveCursorPosition (renderTree ['a', '>', '1'] demoTokens) (some ref)
        = some 2 :=
  ⟨by decide, by decide,
   render_restore_capture_roundtrip ['a', '>', '1'] demoTokens 2
     (by decide) (by decide)⟩

/-- An editable element holding the single text node a. -/
def demoLeafA : Node := .elem "" (.cons (.text ['a']) .nil)

/-- An editable element with no text leaf at all. -/
def demoEmptyElem : Node := .elem "" .nil

/-- C3 counterexample: restoring position 5 on an element whose total
text length is 1 does not clamp to the end of the last leaf (which would
be the boundary (0, 1)); it installs the default document-start range,
caretAt none.  Likewise, restoring a position on an element with zero
leaves replaces the selection with that default range instead of being a
no-op. -/
theorem restore_no_clamp_counterexample :
    restoreCursorPosition demoLeafA (some 5) = .caretAt none ∧
    RestoreResult.caretAt none ≠ .caretAt (some (0, 1)) ∧
    restoreCursorPosition demoEmptyElem (some 1) = .caretAt none ∧
    RestoreResult.caretAt none ≠ .noChange := by
  refine ⟨rfl, by decide, rfl, by decide⟩

/-- C3 amended: restore with a null position is a no-op; restore with a
position exceeding the total text length installs the freshly created
range unchanged, a collapsed caret at the start of the document outside
the element (caretAt none), rather than clamping to the end of the last
leaf; restore on a tree with zero leaves likewise installs that default
range and so is not a no-op. -/
theorem restore_fallback_behavior (t : Node) (p : Nat) :
    restoreCursorPosition t none = .noChange ∧
    (sumLens (leavesN t) < p →
      restoreCursorPosition t (some p) = .caretAt none) ∧
    (leavesN t = [] → restoreCursorPosition t (some p) = .caretAt none) := by
  refine ⟨rfl, ?_, ?_⟩
  · intro h
    rw [restoreCursorPosition, setCursorN_eq_flatWalk,
      flatWalk_overflow _ _ _ _ h]
  · intro h
    rw [restoreCursorPosition, setCursorN_eq_flatWalk, h]
    cases p <;> simp [flatWalk]

/-- C3 witness: the amended behavior evaluated on the element holding
the text a at position 5, and on the empty element. -/
theorem restore_fallback_behavior_witness :
    restoreCursorPosition demoLeafA none = .noChange ∧
    restoreCursorPosition demoLeafA (some 5) = .caretAt none ∧
    restoreCursorPosition demoEmptyElem (some 3) = .caretAt none :=
  ⟨(restore_fallback_behavior demoLeafA 5).1,
   (restore_fallback_behavior demoLeafA 5).2.1 (by decide),
   (restore_fallback_behavior demoEmptyElem 3).2.2 (by decide)⟩

/-- C4 counterexample: restoring position 0 on a non-empty element does
not place the caret inside the tree before the first character of the
first run (the boundary (0, 0)): setCursorToPosition returns immediately
when chars is 0, so the installed range keeps its default document-start
boundary, caretAt none, outside the element. -/
theorem restore_zero_counterexample :
    restoreCursorPosition demoLeafA (some 0) = .caretAt none ∧
    RestoreResult.caretAt none ≠ .caretAt (some (0, 0)) := by
  refine ⟨rfl, by decide⟩

/-- C4 amended: on a tree with positive total text length, restoring a
position equal to the total text length places the caret at the end of
the last run holding text (a boundary whose local offset is the full
length of its leaf, whose linear position is the total length, and after
which every leaf is empty); restoring position 0, however, leaves the
default document-start range, outside the tree. -/
theorem restore_boundary_amended (t : Node)
    (h : 0 < sumLens (leavesN t)) :
    restoreCursorPosition t (some 0) = .caretAt none ∧
    ∃ i off,
      restoreCursorPosition t (some (sumLens (leavesN t)))
        = .caretAt (some (i, off)) ∧
      off = lenAt (leavesN t) i ∧
      prefixLen (leavesN t) i + off = sumLens (leavesN t) ∧
      sumLens ((leavesN t).drop (i + 1)) = 0 := by
  constructor
  · rw [restoreCursorPosition, setCursorN_zero]
  · obtain ⟨i, off, hw, hpre, hoff1, hoffle, hlt⟩ :=
      flatWalk_found (leavesN t) 0 (sumLens (leavesN t)) none h (le_refl _)
    have hsucc := prefixLen_succ (leavesN t) i hlt
    have hdrop := prefixLen_add_sumLens_drop (leavesN t) (i + 1)
    have htake : prefixLen (leavesN t) (i + 1) ≤ sumLens (leavesN t) := by
      omega
    refine ⟨i, off, ?_, by omega, by omega, by omega⟩
    rw [restoreCursorPosition, setCursorN_eq_flatWalk, hw]
    simp

/-- C4 witness: the amended boundary behavior evaluated on the element
holding the single text node a. -/
theorem restore_boundary_amended_witness :
    0 < sumLens (leavesN demoLeafA) ∧
    (restoreCursorPosition demoLeafA (some 0) = .caretAt none ∧
     ∃ i off,
       restoreCursorPosition demoLeafA (some (sumLens (leavesN demoLeafA)))
         = .caretAt (some (i, off)) ∧
       off = lenAt (leavesN demoLeafA) i ∧
       prefixLen (leavesN demoLeafA) i + off = sumLens (leavesN demoLeafA) ∧
       sumLens ((leavesN demoLeafA).drop (i + 1)) = 0) :=
  ⟨by decide, restore_boundary_amended demoLeafA (by decide)⟩

/-- One diagnostic of the lexer's output, carrying its message (the only
field handleFilterInput reads). -/
structure FilterError where
  message : List Char
deriving DecidableEq

/-- The filter-error element: its textContent and whether its classList
contains d-none (hidden). -/
structure ErrorSlot where
  text : List Char
  hidden : Bool
deriving DecidableEq

/-- The value wasm.lex_filter returns: a token list and a diagnostics
list. -/
structure LexOutput where
  tokens : List Token
  errors : List FilterError
deriving DecidableEq

/-- The error-display block of handleFilterInput: when output.errors
.length is truthy, set the slot text to the messages joined by newlines
and remove d-none; otherwise clear the text and add d-none. -/
def updateErrorSlot (errors : List FilterError) : ErrorSlot :=
  if errors.length ≠ 0 then
    { text := List.intercalate ['\n'] (errors.map FilterError.message),
      hidden := false }
  else
    { text := [], hidden := true }

/-- handleFilterInput of src/ts/index.ts, one content-changed cycle: save
the caret of the current tree, read its textContent, take the external
lexer's output as given, update the error slot, rebuild the element's
children through the highlight loop and restore the caret in the new
tree.  The result is the new error-slot state, the new element content
and the restore outcome. -/
def handleFilterInput (output : LexOutput) (prevTree : Node)
    (sel : Option (Option (Nat × Nat))) :
    ErrorSlot × Node × RestoreResult :=
  let position := saveCursorPosition prevTree sel
  let input := treeText prevTree
  let slot := updateErrorSlot output.errors
  let newTree := renderTree input output.tokens
  (slot, newTree, restoreCursorPosition newTree position)

/-- C8: in a content-changed cycle, a non-empty diagnostics list sets
the error slot to the messages joined by line breaks and shows the slot;
an empty diagnostics list clears the text and hides the slot. -/
theorem errorSlot_update_spec (output : LexOutput) (prevTree : Node)
    (sel : Option (Option (Nat × Nat))) :
    (output.errors ≠ [] →
      (handleFilterInput output prevTree sel).1 =
        ⟨List.intercalate ['\n'] (output.errors.map FilterError.message),
         false⟩) ∧
    (output.errors = [] →
      (handleFilterInput output prevTree sel).1 = ⟨[], true⟩) := by
  refine ⟨?_, ?_⟩
  · intro h
    have hl : output.errors.length ≠ 0 := by
      simpa [List.length_eq_zero] using h
    simp [handleFilterInput, updateErrorSlot, hl]
  · intro h
    simp [handleFilterInput, updateErrorSlot, h]

/-- C8 witness: a two-diagnostic cycle shows the joined messages, an
empty one clears and hides the slot. -/
theorem errorSlot_update_spec_witness :
    (handleFilterInput ⟨[], [⟨['e', '1']⟩, ⟨['e', '2']⟩]⟩ demoLeafA
        none).1 = ⟨['e', '1', '\n', 'e', '2'], false⟩ ∧
    (handleFilterInput ⟨[], []⟩ demoLeafA none).1 = ⟨[], true⟩ :=
  ⟨by
    rw [(errorSlot_update_spec ⟨[], [⟨['e', '1']⟩, ⟨['e', '2']⟩]⟩ demoLeafA
      none).1 (by decide)]
    decide,
   (errorSlot_update_spec ⟨[], []⟩ demoLeafA none).2 rfl⟩

/-- The submit button (filter-input-submit), modelled as present, with
its disabled flag. -/
structure SubmitControl where
  disabled : Bool
deriving DecidableEq

/-- handleFilterSubmit of src/ts/index.ts.  The external
wasm.parse_filter call is a parameter: ok models a normal return, error
models a thrown exception.  JS exception semantics: a throw aborts the
handler, so the statements after the call (in particular
button.disabled = false) never run.  The Bool records whether the
handler completed normally. -/
def handleFilterSubmit (parse : List Char → Except (List Char) Unit)
    (input : List Char) : SubmitControl × Bool :=
  let button : SubmitControl := { disabled := true }
  match parse input with
  | .error _ => (button, false)
  | .ok _ => ({ button with disabled := false }, true)

/-- C5 (code bug): handleFilterSubmit wraps the parser call in no
try/finally, so on the path where wasm.parse_filter throws the re-enable
statement is skipped and the submit button stays disabled; only the
normal-return path re-enables it. -/
theorem submit_button_stuck_when_parser_throws :
    (handleFilterSubmit (fun _ => .error ['p', 'a', 'n', 'i', 'c'])
        ['x']).1.disabled = true ∧
    (handleFilterSubmit (fun _ => .ok ()) ['x']).1.disabled = false :=
  ⟨rfl, rfl⟩

/-- C9: the kind-to-class mapping of the highlight loop is total: the
seven BareToken kinds map to their fixed classes (Error to hl-invalid
included) and every other numeric kind value matches no case of the
switch, leaving className the empty string. -/
theorem tokenClassName_total :
    tokenClassName BareToken.Name = "hl-name" ∧
    tokenClassName BareToken.Paren = "hl-cmpr" ∧
    tokenClassName BareToken.Comparator = "hl-cmpr" ∧
    tokenClassName BareToken.String = "hl-str" ∧
    tokenClassName BareToken.Number = "hl-num" ∧
    tokenClassName BareToken.JoinType = "hl-join" ∧
    tokenClassName BareToken.Error = "hl-invalid" ∧
    ∀ k, 7 ≤ k → tokenClassName k = "" := by
  refine ⟨rfl, rfl, rfl, rfl, rfl, rfl, rfl, ?_⟩
  intro k hk
  have h0 : ¬k = BareToken.Name := by simp [BareToken.Name]; omega
  have h1 : ¬k = BareToken.Paren := by simp [BareToken.Paren]; omega
  have h2 : ¬k = BareToken.Comparator := by
    simp [BareToken.Comparator]; omega
  have h3 : ¬k = BareToken.String := by simp [BareToken.String]; omega
  have h4 : ¬k = BareToken.Number := by simp [BareToken.Number]; omega
  have h5 : ¬k = BareToken.JoinType := by simp [BareToken.JoinType]; omega
  have h6 : ¬k = BareToken.Error := by simp [BareToken.Error]; omega
  simp [tokenClassName, h0, h1, h2, h3, h4, h5, h6]

/-- C9 witness: the mapping evaluated at the Name kind and at the
unknown kind 42. -/
theorem tokenClassName_total_witness :
    tokenClassName BareToken.Name = "hl-name" ∧ 7 ≤ 42 ∧
    tokenClassName 42 = "" :=
  ⟨tokenClassName_total.1, by decide,
   tokenClassName_total.2.2.2.2.2.2.2 42 (by decide)⟩

/-- A token list violating the sort/non-overlap contract: the second
token starts inside the first. -/
def overlappingTokens : List Token :=
  [⟨BareToken.Name, 0, 2⟩, ⟨BareToken.Name, 1, 2⟩]

/-- C6 counterexample: on the text ab with overlapping tokens the
highlight loop raises nothing and silently builds a tree whose leaf
concatenation is abb, not the input ab: handleFilterInput contains no
validation of the token contract and no failure path. -/
theorem render_invalid_tokens_counterexample :
    tokensOk 2 0 overlappingTokens = false ∧
    treeText (renderTree ['a', 'b'] overlappingTokens) = ['a', 'b', 'b'] ∧
    (['a', 'b', 'b'] : List Char) ≠ ['a', 'b'] :=
  ⟨by decide, by decide, by decide⟩

/-- C6 amended: the renderer performs no validation of the token
contract: there is a contract-violating token list on which it completes
normally and produces a tree whose leaf concatenation differs from the
input text. -/
theorem render_no_validation_amended :
    ∃ (input : List Char) (toks : List Token),
      tokensOk input.length 0 toks = false ∧
      treeText (renderTree input toks) ≠ input :=
  ⟨['a', 'b'], overlappingTokens, by decide, by decide⟩

/-- Child list of the editable element (an HTML element, never a text
node; the text case is unreachable). -/
def childrenOfN : Node → NodeList
  | .text _ => .nil
  | .elem _ cs => cs

/-- Whether a sibling list is empty. -/
def NodeList.isNil : NodeList → Bool
  | .nil => true
  | .cons _ _ => false

/-- Concatenation of sibling lists. -/
def NodeList.append : NodeList → NodeList → NodeList
  | .nil, ys => ys
  | .cons x xs, ys => .cons x (xs.append ys)

/-- The double-newline condition of handleFilterKeydown, for a caret in
text leaf i at offset off, evaluated over the child list of the node the
leaf belongs to: range.startContainer.parentElement.lastChild exists and
range.intersectsNode(lastChild) and range.endOffset equals
startContainer.textContent.length.  For a collapsed caret inside a text
leaf, intersectsNode(parent.lastChild) holds exactly when the leaf is
its direct parent's last child (a boundary point inside an earlier
sibling, even at its very end, compares before the last child), and the
endOffset test is off = leaf length, so the condition is: the leaf is
the last child of its parent and the caret sits at its end. -/
def quirkL : NodeList → Nat → Nat → Bool
  | .nil, _, _ => false
  | .cons c rest, i, off =>
      if i < (leavesN c).length then
        match c with
        | .text s => rest.isNil && decide (off = s.length)
        | .elem _ cs2 => quirkL cs2 i off
      else quirkL rest (i - (leavesN c).length) off

mutual

/-- Range.insertNode at offset off of the text leaf number i of this
node: per the DOM standard the text node is split at the offset and the
inserted node placed between the halves, so the leaf s becomes the three
sibling text nodes s.take off, ins, s.drop off.  When the handler
inserts two newline text nodes the additional empty split artifact and
the node boundary carry no leaf text, so the inserted run is modelled as
one text node holding all inserted characters. -/
def spliceN (ins : List Char) : Node → Nat → Nat → NodeList
  | .text s, _, off =>
      .cons (.text (s.take off))
        (.cons (.text ins) (.cons (.text (s.drop off)) .nil))
  | .elem c cs, i, off => .cons (.elem c (spliceL ins cs i off)) .nil

/-- Range.insertNode lifted to a sibling list: locate the child holding
text leaf i and splice inside it. -/
def spliceL (ins : List Char) : NodeList → Nat → Nat → NodeList
  | .nil, _, _ => .nil
  | .cons n ns, i, off =>
      if i < (leavesN n).length then (spliceN ins n i off).append ns
      else .cons n (spliceL ins ns (i - (leavesN n).length) off)

end

/-- The new content of the editable element after inserting the text ins
at offset off of leaf i. -/
def insertAtCaret (element : Node) (i off : Nat) (ins : List Char) :
    Node :=
  match element with
  | .elem c cs => .elem c (spliceL ins cs i off)
  | .text s => .text s

/-- Where the caret ends up after the shift-Enter edit: collapsedAfter p
models range.collapse(false) with no restore call (the inserted nodes
lie inside the range, so its end — linear offset p — is right after
them); restored r is the outcome of the trailing
restoreCursorPosition(inputElement, position + 1) call, which replaces
the selection. -/
inductive EditCaret where
  | collapsedAfter (linearPos : Nat)
  | restored (r : RestoreResult)

/-- Outcome of handleFilterKeydown: ignored covers the guard returns (no
element, no range, caret container outside the element) and non-Enter
keys; submitted is the plain-Enter path, which suppresses the newline
and invokes handleFilterSubmit; edited is the shift-Enter path with the
new element content and the final caret. -/
inductive KeydownOutcome where
  | ignored
  | submitted
  | edited (newTree : Node) (caret : EditCaret)

/-- handleFilterKeydown of src/ts/index.ts.  The selection argument is
as in saveCursorPosition: none when no selection or range exists (the
source returns after the range lookup), some none when range 0's
boundary falls outside the element (the inputElement.contains guard
returns), some (some (i, off)) for a collapsed caret at offset off of
text leaf i.  In the shift-Enter branch the source saves the position
first, deletes the (empty) range contents, inserts a newline text node —
twice when the double-newline condition holds — collapses the range
after the insertion and, when the saved position is truthy (non-null and
non-zero), restores the caret to position + 1 in the mutated tree. -/
def handleFilterKeydown (shiftKey : Bool) (key : String) (element : Node)
    (sel : Option (Option (Nat × Nat))) : KeydownOutcome :=
  if shiftKey && key == "Enter" then
    let position := saveCursorPosition element sel
    match sel with
    | none => .ignored
    | some none => .ignored
    | some (some (i, off)) =>
        let ins := if quirkL (childrenOfN element) i off then ['\n', '\n']
                   else ['\n']
        let newTree := insertAtCaret element i off ins
        match position with
        | some pos =>
            if pos ≠ 0 then
              .edited newTree
                (.restored (restoreCursorPosition newTree (some (pos + 1))))
            else
              .edited newTree
                (.collapsedAfter
                  (prefixLen (leavesN element) i + off + ins.length))
        | none =>
            .edited newTree
              (.collapsedAfter
                (prefixLen (leavesN element) i + off + ins.length))
  else if key == "Enter" then .submitted
  else .ignored

/-- Splicing on the flattened leaf list: leaf i becomes the three leaves
take off, ins, drop off. -/
def spliceFlat (ins : List Char) : List (List Char) → Nat → Nat →
    List (List Char)
  | [], _, _ => []
  | s :: ls, i, off =>
      if i = 0 then s.take off :: ins :: s.drop off :: ls
      else s :: spliceFlat ins ls (i - 1) off

theorem leavesL_append (xs ys : NodeList) :
    leavesL (xs.append ys) = leavesL xs ++ leavesL ys := by
  cases xs with
  | nil => simp [NodeList.append, leavesL]
  | cons n ns => simp [NodeList.append, leavesL, leavesL_append ns ys]

theorem spliceFlat_append_left (ins : List Char) (ys : List (List Char)) :
    ∀ (xs : List (List Char)) (i off : Nat), i < xs.length →
      spliceFlat ins (xs ++ ys) i off = spliceFlat ins xs i off ++ ys := by
  intro xs
  induction xs with
  | nil => intro i off h; simp at h
  | cons s tl ih =>
      intro i off h
      by_cases hi : i = 0
      · subst hi; simp [spliceFlat]
      · simp only [List.cons_append, spliceFlat, if_neg hi, List.append_eq]
        rw [ih (i - 1) off (by simp at h; omega)]

theorem spliceFlat_append_right (ins : List Char) (ys : List (List Char)) :
    ∀ (xs : List (List Char)) (i off : Nat), xs.length ≤ i →
      spliceFlat ins (xs ++ ys) i off
        = xs ++ spliceFlat ins ys (i - xs.length) off := by
  intro xs
  induction xs with
  | nil => intro i off _; simp
  | cons s tl ih =>
      intro i off h
      simp only [List.length_cons] at h
      have hi : ¬i = 0 := by omega
      simp only [List.cons_append, spliceFlat, if_neg hi, List.append_eq]
      rw [ih (i - 1) off (by omega)]
      simp only [List.length_cons, List.cons.injEq, true_and]
      congr 2
      omega

mutual

theorem leavesL_spliceN (ins : List Char) (n : Node) :
    ∀ (i off : Nat), i < (leavesN n).length →
      leavesL (spliceN ins n i off) = spliceFlat ins (leavesN n) i off := by
  cases n with
  | text s =>
      intro i off h
      simp only [leavesN, List.length_cons, List.length_nil] at h
      have hi : i = 0 := by omega
      subst hi
      simp [spliceN, leavesL, leavesN, spliceFlat]
  | elem c cs =>
      intro i off h
      simp only [leavesN] at h
      simp only [spliceN, leavesL, leavesN, List.append_nil]
      exact leavesL_spliceL ins cs i off h

theorem leavesL_spliceL (ins : List Char) (cs : NodeList) :
    ∀ (i off : Nat), i < (leavesL cs).length →
      leavesL (spliceL ins cs i off) = spliceFlat ins (leavesL cs) i off := by
  cases cs with
  | nil => intro i off h; simp [leavesL] at h
  | cons n ns =>
      intro i off h
      by_cases hin : i < (leavesN n).length
      · simp only [spliceL, if_pos hin, leavesL, leavesL_append]
        rw [leavesL_spliceN ins n i off hin,
          spliceFlat_append_left ins (leavesL ns) (leavesN n) i off hin]
      · simp only [leavesL, List.length_append] at h
        simp only [spliceL, if_neg hin, leavesL]
        rw [leavesL_spliceL ins ns (i - (leavesN n).length) off (by omega),
          spliceFlat_append_right ins (leavesL ns) (leavesN n) i off
            (by omega)]

end

theorem flatten_spliceFlat (ins : List Char) :
    ∀ (ls : List (List Char)) (i off : Nat), i < ls.length →
      off ≤ lenAt ls i →
      (spliceFlat ins ls i off).flatten =
        ls.flatten.take (prefixLen ls i + off) ++ ins ++
          ls.flatten.drop (prefixLen ls i + off) := by
  intro ls
  induction ls with
  | nil => intro i off h _; simp at h
  | cons s tl ih =>
      intro i off hlt hoff
      by_cases hi : i = 0
      · subst hi
        have hofflen : off ≤ s.length := by simpa [lenAt] using hoff
        simp only [spliceFlat, if_pos rfl, List.flatten_cons, prefixLen_zero,
          Nat.zero_add]
        rw [List.take_append_of_le_length hofflen,
          List.drop_append_of_le_length hofflen]
        simp [List.append_assoc]
      · obtain ⟨j, rfl⟩ : ∃ j, i = j + 1 := ⟨i - 1, by omega⟩
        have hjlt : j < tl.length := by simpa using hlt
        have hjoff : off ≤ lenAt tl j := by simpa [lenAt] using hoff
        simp only [spliceFlat, if_neg hi, Nat.add_sub_cancel,
          List.flatten_cons]
        rw [ih j off hjlt hjoff, prefixLen_cons_succ]
        have h1 : s.length + prefixLen tl j + off
            = s.length + (prefixLen tl j + off) := by omega
        rw [h1, List.take_append, List.drop_append]
        simp [List.append_assoc]

theorem prefix_off_le (ls : List (List Char)) (i off : Nat)
    (hi : i < ls.length) (hoff : off ≤ lenAt ls i) :
    prefixLen ls i + off ≤ sumLens ls := by
  have h1 := prefixLen_succ ls i hi
  have h2 := prefixLen_add_sumLens_drop ls (i + 1)
  omega

theorem restore_then_capture (t : Node) (q : Nat) (h1 : 1 ≤ q)
    (h2 : q ≤ sumLens (leavesN t)) :
    ∃ r, restoreCursorPosition t (some q) = .caretAt (some r) ∧
      saveCursorPosition t (some (some r)) = some q := by
  obtain ⟨i, off, hw, hpre, _, _, _⟩ :=
    flatWalk_found (leavesN t) 0 q none h1 h2
  refine ⟨(i, off), ?_, ?_⟩
  · rw [restoreCursorPosition, setCursorN_eq_flatWalk, hw]
    simp
  · rw [saveCursorPosition, hpre]

theorem treeText_insertAtCaret (cl : String) (cs : NodeList) (i off : Nat)
    (ins : List Char) (hi : i < (leavesL cs).length)
    (hoff : off ≤ lenAt (leavesL cs) i) :
    treeText (insertAtCaret (Node.elem cl cs) i off ins) =
      (treeText (Node.elem cl cs)).take (prefixLen (leavesL cs) i + off) ++
        ins ++
        (treeText (Node.elem cl cs)).drop (prefixLen (leavesL cs) i + off) := by
  have h1 : treeText (insertAtCaret (Node.elem cl cs) i off ins)
      = (leavesL (spliceL ins cs i off)).flatten := rfl
  rw [h1, leavesL_spliceL ins cs i off hi,
    flatten_spliceFlat ins (leavesL cs) i off hi hoff]
  rfl

theorem sumLens_insertAtCaret (cl : String) (cs : NodeList) (i off : Nat)
    (ins : List Char) (hi : i < (leavesL cs).length)
    (hoff : off ≤ lenAt (leavesL cs) i) :
    sumLens (leavesN (insertAtCaret (Node.elem cl cs) i off ins))
      = sumLens (leavesL cs) + ins.length := by
  rw [sumLens_eq_length_flatten]
  have h1 : (leavesN (insertAtCaret (Node.elem cl cs) i off ins)).flatten
      = treeText (insertAtCaret (Node.elem cl cs) i off ins) := rfl
  rw [h1, treeText_insertAtCaret cl cs i off ins hi hoff]
  have hfl : (treeText (Node.elem cl cs)).length = sumLens (leavesL cs) := by
    have h2 : treeText (Node.elem cl cs) = (leavesL cs).flatten := rfl
    rw [h2, ← sumLens_eq_length_flatten]
  have hple := prefix_off_le (leavesL cs) i off hi hoff
  simp only [List.length_append, List.length_take, List.length_drop, hfl]
  omega

/-- Reduction of handleFilterKeydown on the shift-Enter branch with the
caret inside the element, by computation. -/
theorem handleFilterKeydown_inside (cl : String) (cs : NodeList)
    (i off : Nat) :
    handleFilterKeydown true "Enter" (Node.elem cl cs)
        (some (some (i, off))) =
      (if prefixLen (leavesL cs) i + off ≠ 0 then
        KeydownOutcome.edited
          (insertAtCaret (Node.elem cl cs) i off
            (if quirkL cs i off then ['\n', '\n'] else ['\n']))
          (.restored (restoreCursorPosition
            (insertAtCaret (Node.elem cl cs) i off
              (if quirkL cs i off then ['\n', '\n'] else ['\n']))
            (some (prefixLen (leavesL cs) i + off + 1))))
      else
        KeydownOutcome.edited
          (insertAtCaret (Node.elem cl cs) i off
            (if quirkL cs i off then ['\n', '\n'] else ['\n']))
          (.collapsedAfter (prefixLen (leavesL cs) i + off +
            (if quirkL cs i off then ['\n', '\n'] else ['\n']).length))) :=
  rfl

/-- C7 counterexample: shift-Enter with the caret at the end of the
element's whole content (text a, caret at offset 1 of its only leaf)
triggers the double-newline branch: two line-break characters are
inserted, the element text becomes a-newline-newline instead of the
single-newline a-newline, with the caret restored between the two
inserted characters. -/
theorem keydown_double_newline_counterexample :
    handleFilterKeydown true "Enter" demoLeafA (some (some (0, 1))) =
      .edited
        (.elem "" (.cons (.text ['a'])
          (.cons (.text ['\n', '\n']) (.cons (.text []) .nil))))
        (.restored (.caretAt (some (1, 1)))) ∧
    treeText (.elem "" (.cons (.text ['a'])
        (.cons (.text ['\n', '\n']) (.cons (.text []) .nil))))
      = ['a', '\n', '\n'] ∧
    (['a', '\n', '\n'] : List Char) ≠ ['a', '\n'] :=
  ⟨rfl, rfl, by decide⟩

/-- C7 amended: with the caret inside the editable surface at leaf i,
offset off, shift-Enter inserts the line-break text at the caret's
linear position — one character in general, two when the caret sits at
the end of its parent's last child (in particular at the end of all
content) — and, whenever the saved position is nonzero, re-collapses the
caret immediately after the first inserted character; a caret whose
container falls outside the surface makes the handler a no-op. -/
theorem keydown_shift_enter_amended (cl : String) (cs : NodeList)
    (i off : Nat) (hi : i < (leavesL cs).length)
    (hoff : off ≤ lenAt (leavesL cs) i) :
    handleFilterKeydown true "Enter" (.elem cl cs) (some none)
      = .ignored ∧
    ∃ nt c,
      handleFilterKeydown true "Enter" (.elem cl cs)
          (some (some (i, off))) = .edited nt c ∧
      treeText nt =
        (treeText (.elem cl cs)).take (prefixLen (leavesL cs) i + off) ++
          (if quirkL cs i off then ['\n', '\n'] else ['\n']) ++
          (treeText (.elem cl cs)).drop (prefixLen (leavesL cs) i + off) ∧
      (prefixLen (leavesL cs) i + off ≠ 0 →
        ∃ r, c = .restored (.caretAt (some r)) ∧
          saveCursorPosition nt (some (some r))
            = some (prefixLen (leavesL cs) i + off + 1)) := by
  refine ⟨rfl, ?_⟩
  have htext := treeText_insertAtCaret cl cs i off
    (if quirkL cs i off then ['\n', '\n'] else ['\n']) hi hoff
  have hsum := sumLens_insertAtCaret cl cs i off
    (if quirkL cs i off then ['\n', '\n'] else ['\n']) hi hoff
  have hple := prefix_off_le (leavesL cs) i off hi hoff
  have hinslen :
      1 ≤ (if quirkL cs i off then ['\n', '\n'] else ['\n'] :
        List Char).length := by
    by_cases hq : quirkL cs i off <;> simp [hq]
  rw [handleFilterKeydown_inside]
  by_cases hp0 : prefixLen (leavesL cs) i + off = 0
  · rw [if_neg (by omega : ¬prefixLen (leavesL cs) i + off ≠ 0)]
    exact ⟨_, _, rfl, htext, fun h => absurd hp0 h⟩
  · rw [if_pos hp0]
    obtain ⟨r, hr1, hr2⟩ := restore_then_capture
      (insertAtCaret (Node.elem cl cs) i off
        (if quirkL cs i off then ['\n', '\n'] else ['\n']))
      (prefixLen (leavesL cs) i + off + 1) (by omega)
      (by rw [hsum]; omega)
    exact ⟨_, _, rfl, htext, fun _ => ⟨r, by rw [hr1], hr2⟩⟩

/-- C7 witness: shift-Enter mid-text (text ab, caret after the a, where
the double-newline condition does not hold) evaluated through the
amended statement. -/
theorem keydown_shift_enter_amended_witness :
    0 < (leavesL (NodeList.cons (.text ['a', 'b']) .nil)).length ∧
    1 ≤ lenAt (leavesL (NodeList.cons (.text ['a', 'b']) .nil)) 0 ∧
    (handleFilterKeydown true "Enter"
        (.elem "" (NodeList.cons (.text ['a', 'b']) .nil)) (some none)
      = .ignored ∧
    ∃ nt c,
      handleFilterKeydown true "Enter"
          (.elem "" (NodeList.cons (.text ['a', 'b']) .nil))
          (some (some (0, 1))) = .edited nt c ∧
      treeText nt =
        (treeText (.elem "" (NodeList.cons (.text ['a', 'b']) .nil))).take
            (prefixLen (leavesL (NodeList.cons (.text ['a', 'b']) .nil)) 0
              + 1) ++
          (if quirkL (NodeList.cons (.text ['a', 'b']) .nil) 0 1 then
            ['\n', '\n'] else ['\n']) ++
          (treeText (.elem "" (NodeList.cons (.text ['a', 'b']) .nil))).drop
            (prefixLen (leavesL (NodeList.cons (.text ['a', 'b']) .nil)) 0
              + 1) ∧
      (prefixLen (leavesL (NodeList.cons (.text ['a', 'b']) .nil)) 0 + 1
          ≠ 0 →
        ∃ r, c = .restored (.caretAt (some r)) ∧
          saveCursorPosition nt (some (some r))
            = some (prefixLen (leavesL (NodeList.cons (.text ['a', 'b'])
                .nil)) 0 + 1 + 1))) :=
  ⟨by decide, by decide,
   keydown_shift_enter_amended "" (NodeList.cons (.text ['a', 'b']) .nil)
     0 1 (by decide) (by decide)⟩

/-- A boundary point of a DOM Range, relative to the editable element:
outside is a point before the element in the document (such as a fresh
range's document-start boundary), elemStart and elemEnd delimit the
element's contents, and inLeaf i off is offset off inside text leaf i. -/
inductive BPoint where
  | outside
  | elemStart
  | elemEnd
  | inLeaf (i off : Nat)
deriving DecidableEq

/-- The observable value of a live Range object: its two boundary
points. -/
structure RangeVal where
  startRef : BPoint
  endRef : BPoint
deriving DecidableEq

instance : Inhabited RangeVal := ⟨⟨.outside, .outside⟩⟩

/-- The DOM state saveCursorPosition can observe or mutate: the heap of
live Range objects (a handle is an index into the list), the selection
(none models window.getSelection() returning null, otherwise the handles
of the selection's ranges), and the document tree. -/
structure DomState where
  ranges : List RangeVal
  selection : Option (List Nat)
  docTree : Node

/-- Linear character offset of a boundary point within the element; none
for a point outside (before) the element. -/
def bLinear (element : Node) : BPoint → Option Nat
  | .outside => none
  | .elemStart => some 0
  | .elemEnd => some (sumLens (leavesN element))
  | .inLeaf i off => some (prefixLen (leavesN element) i + off)

/-- Whether boundary p lies strictly before boundary q in document
order; outside points precede every point of the element. -/
def bBefore (element : Node) (p q : BPoint) : Bool :=
  match bLinear element p, bLinear element q with
  | none, none => false
  | none, some _ => true
  | some _, none => false
  | some a, some b => decide (a < b)

/-- Range.cloneRange(): allocate a fresh Range object holding the same
boundary values; returns the new state and the fresh handle. -/
def cloneRange (st : DomState) (h : Nat) : DomState × Nat :=
  ({ st with ranges := st.ranges ++ [st.ranges.getD h default] },
   st.ranges.length)

/-- Range.selectNodeContents(element): the range now spans the whole
contents of the element. -/
def selectNodeContentsOp (st : DomState) (h : Nat) : DomState :=
  { st with ranges := st.ranges.set h ⟨.elemStart, .elemEnd⟩ }

/-- Range.setEnd: sets the end boundary of the range; per the DOM
standard, when the new end lies before the current start the start is
moved there as well, collapsing the range. -/
def setEndOp (element : Node) (st : DomState) (h : Nat) (p : BPoint) :
    DomState :=
  let r := st.ranges.getD h default
  let r2 := if bBefore element p r.startRef then RangeVal.mk p p
            else { r with endRef := p }
  { st with ranges := st.ranges.set h r2 }

/-- Range.toString().length: the number of characters of the element's
text lying between the two boundaries (0 for a collapsed range or one
outside the element). -/
def rangeStringLen (element : Node) (r : RangeVal) : Nat :=
  (bLinear element r.endRef).getD 0 - (bLinear element r.startRef).getD 0

/-- saveCursorPosition of cursor.ts as a state function over the DOM
heap: return null without touching anything when the selection is null,
has zero ranges, or the element is null; otherwise clone the selection's
first range, point the clone at the element's contents
(selectNodeContents), move the clone's end to the original range's start
boundary (setEnd) and return the clone's string length.  Only the
freshly allocated clone is ever written. -/
def saveCursorPositionOp (st : DomState) (element : Option Node) :
    Option Nat × DomState :=
  match st.selection with
  | none => (none, st)
  | some [] => (none, st)
  | some (h :: _) =>
      match element with
      | none => (none, st)
      | some el =>
          let r0 := st.ranges.getD h default
          let c := cloneRange st h
          let st2 := selectNodeContentsOp c.1 c.2
          let st3 := setEndOp el st2 c.2 r0.startRef
          (some (rangeStringLen el (st3.ranges.getD c.2 default)), st3)

/-- C10: saveCursorPosition never mutates caller-visible state: the
selection, the document tree and the value of every pre-existing Range
object (in particular the selection's live range) are unchanged — only
the freshly cloned range is written — and on every null-returning path
(no selection, zero ranges, null element) the state is returned exactly
as it was. -/
theorem saveCursor_frame (st : DomState) (element : Option Node) :
    (saveCursorPositionOp st element).2.selection = st.selection ∧
    (saveCursorPositionOp st element).2.docTree = st.docTree ∧
    (∀ h, h < st.ranges.length →
      (saveCursorPositionOp st element).2.ranges.getD h default
        = st.ranges.getD h default) ∧
    ((saveCursorPositionOp st element).1 = none →
      (saveCursorPositionOp st element).2 = st) := by
  match hsel : st.selection with
  | none => simp [saveCursorPositionOp, hsel]
  | some [] => simp [saveCursorPositionOp, hsel]
  | some (h0 :: hs) =>
      match element with
      | none => simp [saveCursorPositionOp, hsel]
      | some el =>
          refine ⟨?_, ?_, ?_, ?_⟩
          · simp [saveCursorPositionOp, hsel, cloneRange,
              selectNodeContentsOp, setEndOp]
          · simp [saveCursorPositionOp, hsel, cloneRange,
              selectNodeContentsOp, setEndOp]
          · intro h hlt
            have hne : st.ranges.length ≠ h := by omega
            simp only [saveCursorPositionOp, hsel, cloneRange,
              selectNodeContentsOp, setEndOp, List.getD,
              List.length_append, List.get?_eq_getElem?]
            rw [List.getElem?_set_ne hne, List.getElem?_set_ne hne,
              List.getElem?_append_left hlt]
          · intro hnone
            simp [saveCursorPositionOp, hsel] at hnone

/-- A DOM state with one live range, selected, whose caret sits at
offset 1 of the first leaf of the element holding the text a. -/
def demoDom : DomState :=
  ⟨[⟨.inLeaf 0 1, .inLeaf 0 1⟩], some [0], demoLeafA⟩

/-- C10 witness: the frame property evaluated on a concrete selection
state: the selection, the tree and the selection's range value survive a
capture. -/
theorem saveCursor_frame_witness :
    (saveCursorPositionOp demoDom (some demoLeafA)).2.selection
      = demoDom.selection ∧
    (saveCursorPositionOp demoDom (some demoLeafA)).2.docTree
      = demoDom.docTree ∧
    (saveCursorPositionOp demoDom (some demoLeafA)).2.ranges.getD 0 default
      = demoDom.ranges.getD 0 default :=
  ⟨(saveCursor_frame demoDom (some demoLeafA)).1,
   (saveCursor_frame demoDom (some demoLeafA)).2.1,
   (saveCursor_frame demoDom (some demoLeafA)).2.2.1 0 (by decide)⟩

end WasmFilter
